import Mathlib

/-!
# Verification of the splitter expense-sharing core

A shallow embedding of the expense-splitting program (files `src/logic.rs`,
`src/group.rs`, `src/logging.rs`, `src/error.rs`) together with proofs and
refutations of the specification claims about it.

Conventions of the embedding:

* `Money` (Rust `i64`) is modelled as `Int`.  Arithmetic is idealized as
  unbounded except where the source explicitly asks for bounded behaviour
  (`i64::saturating_add`, `i64::MAX`), which is modelled with an explicit
  clamp at the `i64` bounds.
* Rust `HashMap<String, _>` values (group members, transaction changes) are
  modelled as association lists `List (String × Int)` with pairwise distinct
  keys; iteration order of the hash map corresponds to list order.  All
  universal theorems quantify over the list, hence over every possible
  iteration order.
* Fallible operations return `Option`/`Except`; a Rust panic (integer
  division by zero, out-of-bounds index, `unwrap` on `None`, `usize`
  underflow) is modelled as `none` or as the `RunResult.panic` constructor.
* The floating-point arithmetic that `Target::parse` uses transiently
  (`str::parse::<f32>`, `f32` multiplication, `f32::round`, `as i64`) is
  idealized as exact rational arithmetic over `ℚ`: decimal strings are read
  exactly, `round` is half-away-from-zero rounding, and `as i64` is
  truncation toward zero.
-/

namespace Splitter

/-- Equality of `Except` results is decidable when both components are. -/
instance {ε α : Type} [DecidableEq ε] [DecidableEq α] : DecidableEq (Except ε α) := fun a b =>
  match a, b with
  | .ok x, .ok y => if h : x = y then .isTrue (by rw [h]) else .isFalse (by simp [h])
  | .error x, .error y => if h : x = y then .isTrue (by rw [h]) else .isFalse (by simp [h])
  | .ok _, .error _ => .isFalse (by simp)
  | .error _, .ok _ => .isFalse (by simp)

/-- Money, Rust `i64`, in minor currency units (cents). -/
abbrev Money := Int

/-- Rust `type TransactionChange = HashMap<String, i64>` (src/logic.rs:16),
modelled as an association list with distinct keys. -/
abbrev TransactionChange := List (String × Money)

/-- The error enumeration of `src/error.rs` (`error_chain!` kinds plus the
`InvalidNumberFormat` foreign link for `ParseFloatError`).  The iteration in
`src/logic.rs` calls the first variant `InvalidFormat`; it is the same
variant as `InvalidTargetFormat` of `src/error.rs`. -/
inductive SplitErr where
  | InvalidTargetFormat (msg : String)
  | InvalidSemantic (msg : String)
  | InvalidName (msg : String)
  | MemberNotFound (msg : String)
  | GroupNotFound
  | LogEntryNotFound
  | InvalidNumberFormat
deriving DecidableEq, Repr

/-- Outcome of a Rust call that may return `Ok`, return `Err`, or panic. -/
inductive RunResult (α : Type) where
  | ok (val : α)
  | err (e : SplitErr)
  | panic
deriving DecidableEq, Repr

/-- Rust `struct Target { member: String, amount: Option<i64> }` (src/logic.rs:150). -/
structure Target where
  member : String
  amount : Option Money
deriving DecidableEq, Repr

/-- Rust `struct Transaction { from, to: String, amount: i64 }` (src/logic.rs:34). -/
structure Transaction where
  from_ : String
  to_ : String
  amount : Money
deriving DecidableEq, Repr

/-- Embeds `Transaction::new`, which stores `amount.abs()` (src/logic.rs:41-47). -/
def Transaction.new (f t : String) (amount : Money) : Transaction :=
  ⟨f, t, |amount|⟩

/-- The currency enumeration of `src/money.rs`. -/
inductive Currency where
  | EUR
  | USD
  | JPY
  | GBP
deriving DecidableEq, Repr

/-- Rust `enum LoggedCommand` (src/logging.rs:6-25). -/
inductive LoggedCommand where
  | Split (name : String) (amount : Money) (froms : List Target) (tos : List Target)
      (group : String) (balance_rest : Bool)
  | Pay (amount : Money) (from_ : String) (to_ : String)
  | Undo (cmd : LoggedCommand)
  | Create (name : String) (members : List String)
deriving DecidableEq, Repr

/-- Rust `struct LogEntry { command, change }` (src/logging.rs:67-71). -/
structure LogEntry where
  command : LoggedCommand
  change : TransactionChange
deriving DecidableEq, Repr

/-- Embeds `LogEntry::reversed_change` (src/logging.rs:82-84): negate every value. -/
def LogEntry.reversed_change (e : LogEntry) : TransactionChange :=
  e.change.map (fun p => (p.1, -p.2))

/-- Rust `struct Group` (src/group.rs:10-16).  `members` is a
`HashMap<String, Money>` modelled as an association list with distinct
keys in hash-iteration order. -/
structure Group where
  name : String
  currency : Currency
  members : List (String × Money)
  log : List LogEntry
deriving DecidableEq, Repr

/-! ## String helpers used by `Target::parse`

`Target::parse` works on `&str`; we model the string as its character
list. -/

/-- Rust `str::split(':')`-style splitting: every separator produces a cut,
empty pieces included, and the empty string yields one empty piece. -/
def splitOn (sep : Char) : List Char → List (List Char)
  | [] => [[]]
  | c :: rest =>
    let r := splitOn sep rest
    if c = sep then [] :: r
    else
      match r with
      | h :: t => (c :: h) :: t
      | [] => [[c]]

/-- Rust `str::trim_end_matches('%')`: drop every trailing `'%'`. -/
def trimEndPercent (l : List Char) : List Char :=
  (l.reverse.dropWhile (fun c => c = '%')).reverse

/-- Rust `str::ends_with('%')`. -/
def endsWithPercent : List Char → Bool
  | [] => false
  | [c] => c = '%'
  | _ :: c :: rest => endsWithPercent (c :: rest)

/-- Rust `str::trim` (whitespace at both ends). -/
def trimWs (l : List Char) : List Char :=
  ((l.dropWhile Char.isWhitespace).reverse.dropWhile Char.isWhitespace).reverse

/-- Rust `str::replace(',', ".")` on a single-character pattern. -/
def replaceComma (l : List Char) : List Char :=
  l.map (fun c => if c = ',' then '.' else c)

/-- Numeric value of a digit run (most significant first). -/
def digitsToNat (l : List Char) : Nat :=
  l.foldl (fun a c => 10 * a + (c.toNat - '0'.toNat)) 0

/-- Exact value of an unsigned decimal literal `digits[.digits]`, as accepted
by Rust `str::parse::<f32>` (exponent, `inf` and `nan` forms are not needed
by this code base and are not modelled), represented as an exact fraction:
the result `(n, k)` stands for the rational `n / 10 ^ k`.  `none` models
`ParseFloatError`. -/
def parseUnsignedDecimal (l : List Char) : Option (Nat × Nat) :=
  match splitOn '.' l with
  | [ip] =>
    if ip ≠ [] ∧ ip.all Char.isDigit then some (digitsToNat ip, 0) else none
  | [ip, fp] =>
    if (ip ++ fp) ≠ [] ∧ (ip ++ fp).all Char.isDigit then
      some (digitsToNat ip * 10 ^ fp.length + digitsToNat fp, fp.length)
    else none
  | _ => none

/-- Exact value of a signed decimal literal; models `str::parse::<f32>` with
the `f32` value idealized as the exact rational `n / 10 ^ k`. -/
def parseDecimal (l : List Char) : Option (Int × Nat) :=
  match l with
  | '-' :: rest => (parseUnsignedDecimal rest).map (fun p => (-(p.1 : Int), p.2))
  | '+' :: rest => (parseUnsignedDecimal rest).map (fun p => ((p.1 : Int), p.2))
  | _ => (parseUnsignedDecimal l).map (fun p => ((p.1 : Int), p.2))

/-- The rational value denoted by a parsed decimal fraction `(n, k)`. -/
def fracVal (p : Int × Nat) : ℚ :=
  (p.1 : ℚ) / (10 : ℚ) ^ p.2

/-- Value of `f32::round` on the exact fraction `a / b` (`b > 0`): rounding to the
nearest integer with halves away from zero, computed with integer
arithmetic (`⌊a/b + 1/2⌋ = (2a+b) / (2b)` for `a ≥ 0`, mirrored for
`a < 0`); see `roundHalfAwayFrac_eq_specRound`. -/
def roundHalfAwayFrac (a : Int) (b : Nat) : Int :=
  if a < 0 then -((2 * (-a) + (b : Int)) / (2 * (b : Int)))
  else (2 * a + (b : Int)) / (2 * (b : Int))

/-- Rust `as i64` on a float value: truncation toward zero of the exact
fraction `a / b`, which for `b > 0` is exactly `Int.tdiv`; see
`tdiv_eq_specTrunc`. -/
def truncFrac (a : Int) (b : Nat) : Int :=
  a.tdiv (b : Int)

/-- Rounding to the nearest integer with halves away from zero, on exact
rationals.  This is the `round` of the specification's words (`f32::round`
follows the same rule). -/
def specRound (q : ℚ) : Int :=
  if q < 0 then -⌊-q + 1 / 2⌋ else ⌊q + 1 / 2⌋

/-- Truncation toward zero on exact rationals: the value of a Rust
`as i64` cast applied to a float. -/
def specTrunc (q : ℚ) : Int :=
  if q < 0 then ⌈q⌉ else ⌊q⌋

/-- The member-name check `Regex::new(NAME_REGEX)`, with
`NAME_REGEX = "^[a-zA-Z0-9][a-zA-Z0-9_\\-()]*$"` (src/logic.rs:277). -/
def nameOk : List Char → Bool
  | [] => false
  | c :: rest =>
    (c.isAlpha || c.isDigit) &&
      rest.all (fun d => d.isAlpha || d.isDigit || d = '_' || d = '-' || d = '(' || d = ')')

/-- The `InvalidFormat` message used twice by `Target::parse`
(src/logic.rs:160-161 and 186-187). -/
def targetFormatMsg : String :=
  "Please use the format <name>:[<number>[%]]. (maybe you forgot ':'?"

/-- Embeds `Target::parse` (src/logic.rs:157-189).  Splits on `':'` after stripping
trailing `'%'`; a two-part directive parses its number (comma or dot
decimal separator) as a percentage of `total_money` (truncated `as i64`) or
as major units times 100 (rounded); a one-part directive is a wildcard and
must pass the name regex. -/
def Target.parse (input : String) (total_money : Money) : Except SplitErr Target :=
  let in_split := splitOn ':' (trimEndPercent input.toList)
  let head := in_split.headD []
  if head = [] then
    .error (.InvalidTargetFormat targetFormatMsg)
  else if in_split.length = 2 then
    let numStr := replaceComma (trimWs (in_split.getD 1 []))
    if endsWithPercent input.toList then
      match parseDecimal numStr with
      | none => .error .InvalidNumberFormat
      | some x =>
        -- `percent = x / 100.; (percent * total_money as f32) as i64`:
        -- x.1/10^x.2 / 100 * total, truncated toward zero.
        .ok ⟨String.mk head, some (truncFrac (x.1 * total_money) (10 ^ x.2 * 100))⟩
    else
      match parseDecimal numStr with
      | none => .error .InvalidNumberFormat
      | some x =>
        -- `amount = x * 100.; amount.round() as i64`:
        -- x.1/10^x.2 * 100, rounded half away from zero.
        .ok ⟨String.mk head, some (roundHalfAwayFrac (x.1 * 100) (10 ^ x.2))⟩
  else if in_split.length = 1 then
    if nameOk head then .ok ⟨String.mk head, none⟩
    else .error (.InvalidName ("Name " ++ String.mk head ++ " is not valid."))
  else .error (.InvalidTargetFormat targetFormatMsg)

/-- The `InvalidSemantic` message of `Target::parse_multiple`
(src/logic.rs:206-209). -/
def oversumMsg (summed total : Money) : String :=
  "Error: The amounts specified with '--from' or '--to' sum up to more than the total amount: "
    ++ toString summed ++ " vs " ++ toString total

/-- The accumulation loop of `Target::parse_multiple` (src/logic.rs:196-204):
parse every directive (propagating the first error), sum the explicit
amounts, count the wildcards. -/
def parseLoop (raw : List String) (total : Money) :
    Except SplitErr (List Target × Money × Nat) :=
  match raw with
  | [] => .ok ([], 0, 0)
  | s :: rest =>
    match Target.parse s total with
    | .error e => .error e
    | .ok t =>
      match parseLoop rest total with
      | .error e => .error e
      | .ok (ts, summed, wc) =>
        .ok (t :: ts, summed + t.amount.getD 0, wc + if t.amount = none then 1 else 0)

/-- Embeds `Target::parse_multiple` (src/logic.rs:195-212): run the parse loop,
then fail with `InvalidSemantic` when `summed.abs() > total_amount`. -/
def Target.parse_multiple (raw_targets : List String) (total_amount : Money) :
    Except SplitErr (List Target × Money × Nat) :=
  match parseLoop raw_targets total_amount with
  | .error e => .error e
  | .ok (ts, summed, wc) =>
    if (summed.natAbs : Int) > total_amount then
      .error (.InvalidSemantic (oversumMsg summed total_amount))
    else .ok (ts, summed, wc)

/-! ## The equal-split distributor -/

/-- The remainder-distribution loop of `split_equal_among`
(src/group.rs:254-260): walk the slots, adding `remainder.signum()` to
each and decrementing the remainder toward zero, stopping once it is
exhausted. -/
def distribute : List Money → Money → List Money
  | [], _ => []
  | x :: xs, r =>
    if r - r.sign = 0 then (x + r.sign) :: xs
    else (x + r.sign) :: distribute xs (r - r.sign)

/-- Embeds `split_equal_among` (src/group.rs:243-262, identically
src/logic.rs:315-333).  `cents / among` and `cents.unsigned_abs() % among`
panic in Rust when `among == 0`; that panic is modelled as `none`. -/
def split_equal_among (cents : Money) (among : Nat) : Option (List Money) :=
  if among = 0 then none
  else
    let everyone_split := cents.tdiv (among : Int)
    let rawRem : Nat := cents.natAbs % among
    let remainder : Money := if cents < 0 then -(rawRem : Int) else (rawRem : Int)
    some (distribute (List.replicate among everyone_split) remainder)

/-! ## The expense allocator `split_into_transaction` (src/group.rs:268-331)

The version in `src/group.rs` belongs to the newest iteration; its
companion module (imported there as `crate::logic`) is not under `src/`,
but its `Target::parse_multiple` is the function of `src/logic.rs`
embedded above, which the specification describes identically. -/

/-- Rust `i64::MAX`. -/
def i64Max : Int := 2 ^ 63 - 1

/-- Rust `i64::MIN`. -/
def i64Min : Int := -(2 ^ 63)

/-- Rust `i64::saturating_add`. -/
def saturating_add (a b : Int) : Int :=
  if a + b > i64Max then i64Max
  else if a + b < i64Min then i64Min
  else a + b

/-- The giver-side guard sum (src/group.rs:275):
`fold(0, |a, b| a.saturating_add(b.amount.unwrap_or(i64::MAX)))`. -/
def giversFoldSat (ts : List Target) : Int :=
  ts.foldl (fun a b => saturating_add a (b.amount.getD i64Max)) 0

/-- The receiver-side guard sum (src/group.rs:276):
`fold(0, |a, b| b.amount.unwrap() + a)`.  The `unwrap` cannot fail because
the preceding guard already rejected receivers without an amount, so it is
modelled as `getD 0`. -/
def recvrsFoldSum (ts : List Target) : Int :=
  ts.foldl (fun a b => b.amount.getD 0 + a) 0

/-- The positive leg of the allocator (src/group.rs:291-304): walk the
members in iteration order; a member named by a giver gets the giver's
explicit amount, a member named by a wildcard giver consumes the next
entry of `moneysplit` (`moneysplit[wcg_index]`, whose out-of-bounds panic
is modelled as `none`), and every other member starts at 0. -/
def leg1 : List (String × Money) → List Target → List Money →
    Option (List (String × Money))
  | [], _, _ => some []
  | (n, _) :: rest, givers, ms =>
    match givers.find? (fun t => t.member == n) with
    | some t =>
      match t.amount with
      | some a => (leg1 rest givers ms).map (fun l => (n, a) :: l)
      | none =>
        match ms with
        | [] => none
        | v :: ms2 => (leg1 rest givers ms2).map (fun l => (n, v) :: l)
    | none => (leg1 rest givers ms).map (fun l => (n, (0 : Int)) :: l)

/-- The negative leg of the allocator (src/group.rs:314-328): walk the
members again; a member named by a receiver pays its explicit amount
(`recv.amount.unwrap()`, modelled as `none` on a missing amount) and, when
`balance_rest` is set, additionally the next `moneysplit` share; every
other member pays the next `moneysplit` share (`moneysplit[ms_idx]`, whose
out-of-bounds panic is modelled as `none`). -/
def leg2 : List (String × Money) → List Target → List Money → Bool →
    Option (List (String × Money))
  | [], _, _, _ => some []
  | (n, v) :: rest, recvrs, ms, br =>
    match recvrs.find? (fun t => t.member == n) with
    | some t =>
      match t.amount with
      | none => none
      | some a =>
        if br then
          match ms with
          | [] => none
          | mv :: ms2 => (leg2 rest recvrs ms2 br).map (fun l => (n, v - a - mv) :: l)
        else (leg2 rest recvrs ms br).map (fun l => (n, v - a) :: l)
    | none =>
      match ms with
      | [] => none
      | mv :: ms2 => (leg2 rest recvrs ms2 br).map (fun l => (n, v - mv) :: l)

/-- Embeds `split_into_transaction` (src/group.rs:268-331): parse both directive
lists, run the three validation guards, then build the per-member delta in
two legs.  The `usize` subtraction `group.members.len() - recvrs.0.len()`
underflows (panics in a debug build) when there are more receivers than
members; that is modelled as `panic`, as are the division by zero inside
`split_equal_among` and the out-of-bounds `moneysplit` indexing. -/
def split_into_transaction (total_amount : Money) (g : Group)
    (froms tos : List String) (balance_rest : Bool) :
    RunResult (TransactionChange × List Target × List Target) :=
  match Target.parse_multiple froms total_amount with
  | .error e => .err e
  | .ok (givers, gsum, gwc) =>
    match Target.parse_multiple tos total_amount with
    | .error e => .err e
    | .ok (recvrs, rsum, _rwc) =>
      if recvrs.any (fun el => el.amount = none) then
        .err (.InvalidTargetFormat "Amounts for --to must be specified explicitly")
      else if giversFoldSat givers ≤ recvrsFoldSum recvrs then
        .err (.InvalidSemantic
          "Amounts of --from directives must either contain a catch-all or be >= amounts specified by --to")
      else if recvrs.any (fun el => !((g.members.map Prod.fst).contains el.member)) ||
          givers.any (fun el => !((g.members.map Prod.fst).contains el.member)) then
        .err (.InvalidName "Please only specify members within the group")
      else
        match split_equal_among (total_amount - gsum) gwc with
        | none => .panic
        | some ms1 =>
          match leg1 g.members givers ms1 with
          | none => .panic
          | some m1 =>
            if g.members.length < (if balance_rest then 0 else recvrs.length) then .panic
            else
              match split_equal_among (total_amount - rsum)
                  (g.members.length - (if balance_rest then 0 else recvrs.length)) with
              | none => .panic
              | some ms2 =>
                match leg2 m1 recvrs ms2 balance_rest with
                | none => .panic
                | some m2 => .ok (m2, givers, recvrs)

/-! ## Ledger (Group) mutation -/

/-- First-match lookup in a transaction change (`HashMap::get`). -/
def lookupTC (tac : TransactionChange) (k : String) : Option Money :=
  match tac with
  | [] => none
  | (n, v) :: rest => if n = k then some v else lookupTC rest k

/-- Rust `HashMap::insert`: replace the value of an existing key, otherwise
append the new entry. -/
def insertTC (tac : TransactionChange) (k : String) (v : Money) : TransactionChange :=
  match tac with
  | [] => [(k, v)]
  | (n, w) :: rest => if n = k then (n, v) :: rest else (n, w) :: insertTC rest k v

/-- Balance update of `Group::apply_tachange` (src/group.rs:176-180): for
every member, `*balance += tac.get(name).unwrap()`.  A member whose name is
missing from `tac` makes the `unwrap` panic, modelled as `none`; keys of
`tac` that are not members are never consulted. -/
def applyBalances : List (String × Money) → TransactionChange →
    Option (List (String × Money))
  | [], _ => some []
  | (n, b) :: rest, tac =>
    match lookupTC tac n with
    | none => none
    | some v => (applyBalances rest tac).map (fun l => (n, b + v) :: l)

/-- Embeds `Group::apply_tachange` (src/group.rs:176-180). -/
def Group.apply_tachange (g : Group) (tac : TransactionChange) : Option Group :=
  (applyBalances g.members tac).map (fun l => { g with members := l })

/-- The member-mutation loop of `Group::log_pay_transaction`
(src/group.rs:188-200): walk the members, adding `amount` to `from`'s
balance and subtracting it from `to`'s, counting the matches and breaking
once both were seen.  Returns the mutated members and the final
`found_both` counter. -/
def payLoop : List (String × Money) → String → String → Money → Nat →
    List (String × Money) × Nat
  | [], _, _, _, found => ([], found)
  | (n, b) :: rest, f, t, a, found =>
    let step : Money × Nat :=
      if n = f then (b + a, found + 1)
      else if n = t then (b - a, found + 1)
      else (b, found)
    if step.2 = 2 then ((n, step.1) :: rest, step.2)
    else
      let r := payLoop rest f t a step.2
      ((n, step.1) :: r.1, r.2)

/-- Embeds `Group::log_pay_transaction` (src/group.rs:181-211).  The function
mutates `self` through `&mut`, so the (possibly partially updated) group is
returned together with the error, if any: on `Err` the member loop has
already run, but no log entry is pushed. -/
def Group.log_pay_transaction (g : Group) (amount : Money) (f t : String) :
    Group × Option SplitErr :=
  let transaction := insertTC (insertTC [] f (-amount)) t amount
  let r := payLoop g.members f t amount 0
  if r.2 ≠ 2 then
    ({ g with members := r.1 },
      some (.MemberNotFound ("Either " ++ f ++ " or " ++ t ++ " do not exists within this group")))
  else
    ({ g with
        members := r.1
        log := g.log ++ [⟨.Pay amount f t, transaction⟩] }, none)

/-- Embeds `Group::get_log` (src/group.rs:39-45). -/
def Group.get_log (g : Group) (index : Option Nat) : Except SplitErr LogEntry :=
  if g.log.isEmpty then .error .LogEntryNotFound
  else
    let i := index.getD (g.log.length - 1)
    match g.log.get? i with
    | none => .error .LogEntryNotFound
    | some e => .ok e

/-- Embeds `Group::remove_log` (src/group.rs:46-55): returns the removed entry and
the group with that entry deleted. -/
def Group.remove_log (g : Group) (index : Option Nat) :
    Except SplitErr (LogEntry × Group) :=
  if g.log.isEmpty then .error .LogEntryNotFound
  else
    let i := index.getD (g.log.length - 1)
    if i ≥ g.log.length then .error .LogEntryNotFound
    else
      match g.log.get? i with
      | none => .error .LogEntryNotFound
      | some e => .ok (e, { g with log := g.log.eraseIdx i })

/-! ## The settlement planner `Group::balance` (src/group.rs:72-136)

`Logic::balance_group` (src/logic.rs:422-478) is the same algorithm on the
same data.  The creditor/debtor vectors are collected from hash-map
iteration (modelled by list order) and sorted with `sort_unstable_by`; the
sort is modelled by an insertion sort, which realizes one admissible
`sort_unstable` outcome (and the only one whenever the keys are pairwise
distinct, as in every concrete input evaluated below). -/

/-- Insert into a list sorted ascending by `key`. -/
def insortBy (key : String × Money → Int) (x : String × Money) :
    List (String × Money) → List (String × Money)
  | [] => [x]
  | y :: ys => if key x ≤ key y then x :: y :: ys else y :: insortBy key x ys

/-- Insertion sort ascending by `key`, modelling `sort_unstable_by`. -/
def sortBy (key : String × Money → Int) : List (String × Money) → List (String × Money)
  | [] => []
  | x :: xs => insortBy key x (sortBy key xs)

/-- The creditor scan of the exact-match pass (src/group.rs:93-102) for one
debtor: break at the first creditor whose balance exceeds the debtor's
need, emit a zeroing transaction on an exact match, and keep scanning.
Returns the updated creditors, the emitted transactions and the debtor's
final balance. -/
def exactScan (dname : String) (dbal : Money) :
    List (String × Money) → List (String × Money) × List Transaction × Money
  | [] => ([], [], dbal)
  | (cn, cb) :: cs =>
    if -dbal < cb then ((cn, cb) :: cs, [], dbal)
    else if dbal = -cb then
      let r := exactScan dname 0 cs
      ((cn, 0) :: r.1, Transaction.new dname cn cb :: r.2.1, r.2.2)
    else
      let r := exactScan dname dbal cs
      ((cn, cb) :: r.1, r.2.1, r.2.2)

/-- The exact-match pass (src/group.rs:92-103): run `exactScan` for every
debtor in order, threading the creditor vector. -/
def exactPass : List (String × Money) → List (String × Money) →
    List (String × Money) × List (String × Money) × List Transaction
  | [], cs => ([], cs, [])
  | (dn, db) :: ds, cs =>
    let r := exactScan dn db cs
    let rest := exactPass ds r.1
    ((dn, r.2.2) :: rest.1, rest.2.1, r.2.1 ++ rest.2.2)

/-- The skip loop `while creditors.get(c_idx).unwrap().balance == 0`
(src/group.rs:111-113): skip zero-balance creditors; walking past the end
of the vector panics, modelled as `none`. -/
def skipZeros : List (String × Money) → Option (List (String × Money))
  | [] => none
  | (cn, cb) :: cs => if cb = 0 then skipZeros cs else some ((cn, cb) :: cs)

/-- The absorption loop `while c.balance < -d.balance` (src/group.rs:122-128)
for one debtor: consume whole creditors, emitting one transaction each,
then unconditionally step to the next creditor (`unwrap` panic on the
vector end is modelled as `none`).  Returns the remaining creditors
(starting at the current cursor), the transactions emitted, and the
debtor's remaining balance. -/
def absorb (dname : String) (dbal : Money) :
    List (String × Money) → Option (List (String × Money) × List Transaction × Money)
  | [] => none
  | (cn, cb) :: cs =>
    if cb < -dbal then
      match absorb dname (dbal + cb) cs with
      | none => none
      | some (cs2, ts, db) => some (cs2, Transaction.new dname cn cb :: ts, db)
    else some ((cn, cb) :: cs, [], dbal)

/-- The non-matching (remainder) pass (src/group.rs:105-134): for every
debtor that is still unsettled, skip zeroed creditors, settle an exact
offset, otherwise absorb smaller creditors and, if the current creditor
then strictly exceeds the remaining need, settle partially.  When the
absorption loop exits with the creditor balance exactly equal to the
remaining need, the source takes neither branch and the debtor's residual
is dropped. -/
def remainderPass : List (String × Money) → List (String × Money) →
    Option (List Transaction)
  | [], _ => some []
  | (dn, db) :: ds, cs =>
    if db = 0 then remainderPass ds cs
    else
      match skipZeros cs with
      | none => none
      | some [] => none
      | some ((cn, cb) :: cs2) =>
        if cb = -db then
          match remainderPass ds cs2 with
          | none => none
          | some ts => some (Transaction.new dn cn cb :: ts)
        else
          match absorb dn db ((cn, cb) :: cs2) with
          | none => none
          | some ([], _, _) => none
          | some ((cn2, cb2) :: cs3, ts, db2) =>
            if cb2 > -db2 then
              match remainderPass ds ((cn2, cb2 + db2) :: cs3) with
              | none => none
              | some ts2 => some (ts ++ Transaction.new dn cn2 db2 :: ts2)
            else
              match remainderPass ds ((cn2, cb2) :: cs3) with
              | none => none
              | some ts2 => some (ts ++ ts2)

/-- Embeds `Group::balance` (src/group.rs:72-136): partition members into
creditors (balance > 0, sorted ascending by balance) and debtors
(balance < 0, sorted ascending by absolute balance), run the exact-match
pass and then the remainder pass.  A panic of either pass is `none`. -/
def Group.balance (g : Group) : Option (List Transaction) :=
  let creditors := sortBy (fun m => m.2) (g.members.filter (fun m => 0 < m.2))
  let debtors := sortBy (fun m => (m.2.natAbs : Int)) (g.members.filter (fun m => m.2 < 0))
  let e := exactPass debtors creditors
  match remainderPass e.1 e.2.1 with
  | none => none
  | some ts => some (e.2.2 ++ ts)

/-- Application of a settlement list as `Logic::balance` does on
confirmation (src/logic.rs:499-510): for each transaction, the payer's
balance is increased by the amount and the payee's balance decreased. -/
def applySettlementCode (ms : List (String × Money)) (ts : List Transaction) :
    List (String × Money) :=
  ts.foldl
    (fun acc t =>
      (acc.map (fun p => if p.1 = t.from_ then (p.1, p.2 + t.amount) else p)).map
        (fun p => if p.1 = t.to_ then (p.1, p.2 - t.amount) else p))
    ms

/-- Application of a settlement list in the words of the claim (C1):
"each transaction subtracting its amount from the payer's balance and
adding it to the payee's balance". -/
def applySettlementClaim (ms : List (String × Money)) (ts : List Transaction) :
    List (String × Money) :=
  ts.foldl
    (fun acc t =>
      (acc.map (fun p => if p.1 = t.from_ then (p.1, p.2 - t.amount) else p)).map
        (fun p => if p.1 = t.to_ then (p.1, p.2 + t.amount) else p))
    ms

/-- The sum of the values of a transaction change. -/
def sumValues (tc : TransactionChange) : Money :=
  (tc.map Prod.snd).sum

/-! ## Claim theorems -/

/-- C1.  The claim fails on the code: for the balances
`A = -10, B = 4, C = 6` (which sum to 0) the planner emits only the
transaction `A → B` over `4`.  The inner absorption loop of the remainder
pass exits with the creditor balance (6) exactly equal to the debtor's
remaining need, and the source then takes neither the exact-match nor the
partial-settle branch, dropping the residual.  Applying the returned plan
— with the code's own application convention (payer `+=`, payee `-=`,
src/logic.rs:499-510) or with the claim's stated convention (payer `-=`,
payee `+=`) — leaves balances that are not all zero. -/
theorem C1_settlement_plan_leaves_residual :
    sumValues [("A", -10), ("B", 4), ("C", 6)] = 0 ∧
    Group.balance ⟨"g", .EUR, [("A", -10), ("B", 4), ("C", 6)], []⟩ =
      some [⟨"A", "B", 4⟩] ∧
    applySettlementCode [("A", -10), ("B", 4), ("C", 6)] [⟨"A", "B", 4⟩] =
      [("A", -6), ("B", 0), ("C", 6)] ∧
    applySettlementClaim [("A", -10), ("B", 4), ("C", 6)] [⟨"A", "B", 4⟩] =
      [("A", -14), ("B", 8), ("C", 6)] ∧
    ¬ (∀ p ∈ applySettlementCode [("A", -10), ("B", 4), ("C", 6)] [⟨"A", "B", 4⟩], p.2 = 0) ∧
    ¬ (∀ p ∈ applySettlementClaim [("A", -10), ("B", 4), ("C", 6)] [⟨"A", "B", 4⟩], p.2 = 0) := by
  decide

/-- C4.  The claim fails on the code: `log_pay_transaction` applies
`from += amount, to -= amount` to the balances (src/group.rs:188-200) but
records the change map `{from: -amount, to: +amount}`
(src/group.rs:183-185) in the log entry.  Afterwards, applying the
reversed change of that entry and removing it does restore the log, but
doubles the payment instead of undoing it: paying 5 from Alice to Bob and
then "undoing" leaves Alice at 10 and Bob at -10 instead of 0 and 0. -/
theorem C4_pay_log_records_negated_delta :
    Group.log_pay_transaction ⟨"g", .EUR, [("Alice", 0), ("Bob", 0)], []⟩ 5 "Alice" "Bob" =
      (⟨"g", .EUR, [("Alice", 5), ("Bob", -5)],
        [⟨.Pay 5 "Alice" "Bob", [("Alice", -5), ("Bob", 5)]⟩]⟩, none) ∧
    Group.remove_log
        ⟨"g", .EUR, [("Alice", 5), ("Bob", -5)],
          [⟨.Pay 5 "Alice" "Bob", [("Alice", -5), ("Bob", 5)]⟩]⟩ none =
      .ok (⟨.Pay 5 "Alice" "Bob", [("Alice", -5), ("Bob", 5)]⟩,
        ⟨"g", .EUR, [("Alice", 5), ("Bob", -5)], []⟩) ∧
    LogEntry.reversed_change ⟨.Pay 5 "Alice" "Bob", [("Alice", -5), ("Bob", 5)]⟩ =
      [("Alice", 5), ("Bob", -5)] ∧
    Group.apply_tachange ⟨"g", .EUR, [("Alice", 5), ("Bob", -5)], []⟩
        [("Alice", 5), ("Bob", -5)] =
      some ⟨"g", .EUR, [("Alice", 10), ("Bob", -10)], []⟩ ∧
    [("Alice", (10 : Money)), ("Bob", -10)] ≠ [("Alice", 0), ("Bob", 0)] := by
  decide

/-- C5.  The claim fails on the code: paying 5 from Alice to the
non-member Zed does return `MemberNotFound`, but the member loop of
`log_pay_transaction` has already added the amount to Alice's balance
before the missing member is detected (src/group.rs:188-203), so the
mutation is observable despite the error.  Only the log is left
unchanged. -/
theorem C5_pay_member_not_found_mutates_balance :
    Group.log_pay_transaction ⟨"g", .EUR, [("Alice", 0), ("Bob", 0)], []⟩ 5 "Alice" "Zed" =
      (⟨"g", .EUR, [("Alice", 5), ("Bob", 0)], []⟩,
        some (.MemberNotFound "Either Alice or Zed do not exists within this group")) ∧
    [("Alice", (5 : Money)), ("Bob", 0)] ≠ [("Alice", 0), ("Bob", 0)] := by
  decide

/-- C9.  `Target::parse` of the bare name `"peter"` yields a wildcard
target with no amount, while `"peter:"` (empty number), `":"` (empty name)
and `"25,22"` (no separator, and `,` is rejected by the name regex) are
all errors, for every total amount. -/
theorem C9_wildcard_and_malformed_directives (total : Money) :
    Target.parse "peter" total = .ok ⟨"peter", none⟩ ∧
    (∃ e, Target.parse "peter:" total = .error e) ∧
    (∃ e, Target.parse ":" total = .error e) ∧
    (∃ e, Target.parse "25,22" total = .error e) := by
  exact ⟨rfl, ⟨.InvalidNumberFormat, rfl⟩, ⟨.InvalidTargetFormat targetFormatMsg, rfl⟩,
    ⟨.InvalidName "Name 25,22 is not valid.", rfl⟩⟩

/-- Witness for C9 at the concrete total 10000. -/
theorem C9_wildcard_and_malformed_directives_witness :
    Target.parse "peter" 10000 = .ok ⟨"peter", none⟩ ∧
    (∃ e, Target.parse "peter:" 10000 = .error e) ∧
    (∃ e, Target.parse ":" 10000 = .error e) ∧
    (∃ e, Target.parse "25,22" 10000 = .error e) :=
  C9_wildcard_and_malformed_directives 10000

/-- C10.  With the member group `{Alice, Bob}`, total 100 and the single
explicit directive `"Alice:1"` (amount 100) the parse succeeds with
wildcard count 0, every validation guard passes, and the allocator reaches
`split_equal_among(total - explicit_sum, 0)` (src/group.rs:285-287) whose
first step `cents / among` divides by zero — the modelled panic.  The
division by zero is therefore reachable from the allocator's entry point
with an all-explicit `--from` list. -/
theorem C10_zero_wildcards_reaches_division_by_zero :
    Target.parse_multiple ["Alice:1"] 100 = .ok ([⟨"Alice", some 100⟩], 100, 0) ∧
    split_equal_among (100 - 100) 0 = none ∧
    split_into_transaction 100 ⟨"g", .EUR, [("Alice", 0), ("Bob", 0)], []⟩
      ["Alice:1"] [] false = .panic := by
  decide

/-! ## Bridging the integer-fraction arithmetic to exact rationals -/

/-- The function `roundHalfAwayFrac a b` is half-away-from-zero rounding of the exact
rational `a / b`. -/
theorem roundHalfAwayFrac_eq_specRound (a : Int) (b : Nat) (hb : 0 < b) :
    roundHalfAwayFrac a b = specRound ((a : ℚ) / (b : ℚ)) := by
  have hbq : ((b : ℚ)) ≠ 0 := by positivity
  have key : ∀ c : Int, 0 ≤ c →
      (2 * c + (b : Int)) / (2 * (b : Int)) = ⌊(c : ℚ) / (b : ℚ) + 1 / 2⌋ := by
    intro c _
    have h2 : ((c : ℚ) / (b : ℚ) + 1 / 2) =
        ((2 * c + (b : Int) : Int) : ℚ) / ((2 * b : Nat) : ℚ) := by
      push_cast
      field_simp
      ring
    rw [h2, Rat.floor_intCast_div_natCast]
    push_cast
    ring_nf
  by_cases ha : a < 0
  · have hq : (a : ℚ) / (b : ℚ) < 0 := by
      apply div_neg_of_neg_of_pos
      · exact_mod_cast ha
      · positivity
    rw [roundHalfAwayFrac, specRound, if_pos ha, if_pos hq,
      key (-a) (by omega)]
    push_cast
    ring_nf
  · have hq : ¬ ((a : ℚ) / (b : ℚ) < 0) := by
      push_neg
      apply div_nonneg
      · exact_mod_cast Int.not_lt.mp ha
      · positivity
    rw [roundHalfAwayFrac, specRound, if_neg ha, if_neg hq,
      key a (Int.not_lt.mp ha)]

/-- The function `truncFrac a b` is truncation toward zero of the exact rational
`a / b`: the `Int.tdiv` of the embedding computes exactly the value of
Rust's `as i64` cast on the exact quotient. -/
theorem truncFrac_eq_specTrunc (a : Int) (b : Nat) (hb : 0 < b) :
    truncFrac a b = specTrunc ((a : ℚ) / (b : ℚ)) := by
  have hbz : (0 : Int) ≤ (b : Int) := by positivity
  have hfl : ∀ c : Int, 0 ≤ c → c.tdiv (b : Int) = ⌊(c : ℚ) / (b : ℚ)⌋ := by
    intro c hc
    rw [Int.tdiv_eq_ediv hc hbz, ← Rat.floor_intCast_div_natCast c b]
  by_cases ha : a < 0
  · have hq : (a : ℚ) / (b : ℚ) < 0 := by
      apply div_neg_of_neg_of_pos
      · exact_mod_cast ha
      · positivity
    have hneg : a.tdiv (b : Int) = -((-a).tdiv (b : Int)) := by
      rw [Int.neg_tdiv]
      ring
    rw [truncFrac, specTrunc, if_pos hq, hneg, hfl (-a) (by omega)]
    have : ((-a : Int) : ℚ) / (b : ℚ) = -((a : ℚ) / (b : ℚ)) := by
      push_cast
      ring
    rw [this, Int.floor_neg]
    ring
  · have hq : ¬ ((a : ℚ) / (b : ℚ) < 0) := by
      push_neg
      apply div_nonneg
      · exact_mod_cast Int.not_lt.mp ha
      · positivity
    rw [truncFrac, specTrunc, if_neg hq, hfl a (Int.not_lt.mp ha)]

/-- C6, counterexample.  The claim requires a `MemberNotFound` error when
the delta contains a key that is not a member; the code's
`apply_tachange` never inspects such keys and succeeds: with the single
member Alice and the delta `{Alice: 3, Zed: 7}`, Zed is not a member yet
the operation completes without error (and it cannot fail — the Rust
function returns `()`). -/
theorem C6_unknown_key_not_an_error :
    ((([("Alice", (0 : Money))]).map Prod.fst).contains "Zed" = false) ∧
    Group.apply_tachange ⟨"g", .EUR, [("Alice", 0)], []⟩ [("Alice", 3), ("Zed", 7)] =
      some ⟨"g", .EUR, [("Alice", 3)], []⟩ := by
  decide

/-- C2, counterexample.  With the duplicate-member directive list
`--from Alice:30 --from Alice:40 --from Bob` against total 10000, both
explicit amounts enter the parsed sum (7000) but the member loop applies
only the first (`find`, src/group.rs:293), so the positive leg injects
3000 + 3000 instead of 10000 and the returned change sums to -4000, not 0.
The call nevertheless returns `Ok`, refuting the claim as stated. -/
theorem C2_duplicate_giver_breaks_conservation :
    split_into_transaction 10000 ⟨"g", .EUR, [("Alice", 0), ("Bob", 0)], []⟩
        ["Alice:30", "Alice:40", "Bob"] [] false =
      .ok ([("Alice", -2000), ("Bob", -2000)],
        [⟨"Alice", some 3000⟩, ⟨"Alice", some 4000⟩, ⟨"Bob", none⟩], []) ∧
    sumValues [("Alice", -2000), ("Bob", -2000)] = -4000 ∧
    (-4000 : Money) ≠ 0 := by
  decide

/-- C7, counterexample.  The claim says a percentage directive yields
`round(p/100 * total_amount)`; the code computes
`(percent * total_money as f32) as i64` (src/logic.rs:167), a truncation
toward zero, not a rounding.  For `"peter:1%"` against total 150 the exact
value is 1.5 (and the `f32` computation also lands below 2): the code
yields 1 while the claimed rounding yields 2. -/
theorem C7_percent_truncates_not_rounds :
    Target.parse "peter:1%" 150 = .ok ⟨"peter", some 1⟩ ∧
    specRound ((1 : ℚ) / 100 * 150) = 2 ∧
    (1 : Money) ≠ 2 := by
  refine ⟨by decide, ?_, by decide⟩
  rw [specRound]
  norm_num

/-! ## Properties of the equal-split distributor (C3) -/

/-- Stepping the remainder toward zero decrements its absolute value and
preserves its sign while it is nonzero. -/

theorem sign_facts (r : Int) (h : r ≠ 0) :
    (r - r.sign).natAbs = r.natAbs - 1 ∧ 1 ≤ r.natAbs ∧
      (r - r.sign ≠ 0 → (r - r.sign).sign = r.sign) := by
  rcases lt_trichotomy r 0 with hr | hr | hr
  · have hs : r.sign = -1 := Int.sign_eq_neg_one_iff_neg.mpr hr
    rw [hs]
    refine ⟨by omega, by omega, fun h2 => ?_⟩
    rw [Int.sign_eq_neg_one_iff_neg.mpr (show r - (-1) < 0 by omega)]
  · exact absurd hr h
  · have hs : r.sign = 1 := Int.sign_eq_one_iff_pos.mpr hr
    rw [hs]
    refine ⟨by omega, by omega, fun h2 => ?_⟩
    rw [Int.sign_eq_one_iff_pos.mpr (show 0 < r - 1 by omega)]

/-- The loop `distribute` preserves the slot count. -/
theorem distribute_length (l : List Money) (r : Int) :
    (distribute l r).length = l.length := by
  induction l generalizing r with
  | nil => rfl
  | cons x xs ih =>
    rw [distribute]
    by_cases h : r - r.sign = 0 <;> simp [h, ih]

/-- When the remainder fits in the slots, `distribute` adds exactly the
remainder to the total. -/
theorem distribute_sum (l : List Money) (r : Int) (h : r.natAbs ≤ l.length) :
    (distribute l r).sum = l.sum + r := by
  induction l generalizing r with
  | nil =>
    have : r = 0 := by simp at h; omega
    simp [distribute, this]
  | cons x xs ih =>
    rw [distribute]
    by_cases h0 : r - r.sign = 0
    · have hrs : r = r.sign := by omega
      simp only [if_pos h0, List.sum_cons]
      nth_rewrite 2 [hrs]
      ring
    · have hr : r ≠ 0 := by
        intro h1
        rw [h1] at h0
        simp at h0
      obtain ⟨hA, hB, _⟩ := sign_facts r hr
      have hle : (r - r.sign).natAbs ≤ xs.length := by
        simp at h
        omega
      simp only [if_neg h0, List.sum_cons, ih (r - r.sign) hle]
      ring

/-- Every slot of a constant list is left at the base value or moved by
one remainder unit. -/
theorem distribute_mem (a : Int) (l : List Money) (r : Int)
    (hl : ∀ x ∈ l, x = a) :
    ∀ y ∈ distribute l r, y = a ∨ y = a + r.sign := by
  induction l generalizing r with
  | nil => simp [distribute]
  | cons x xs ih =>
    have hx : x = a := hl x (by simp)
    rw [distribute]
    by_cases h0 : r - r.sign = 0
    · simp only [if_pos h0]
      intro y hy
      rcases List.mem_cons.mp hy with h1 | h1
      · right; rw [h1, hx]
      · left; exact hl y (List.mem_cons_of_mem x h1)
    · have hr : r ≠ 0 := by
        intro h1
        rw [h1] at h0
        simp at h0
      obtain ⟨_, _, hs⟩ := sign_facts r hr
      simp only [if_neg h0]
      intro y hy
      rcases List.mem_cons.mp hy with h1 | h1
      · right; rw [h1, hx]
      · rcases ih (r - r.sign) (fun z hz => hl z (List.mem_cons_of_mem x hz)) y h1 with h2 | h2
        · left; exact h2
        · right; rw [h2, hs h0]

/-- Distributing the negated remainder over negated slots negates the
result elementwise. -/
theorem distribute_neg (l : List Money) (r : Int) :
    distribute (l.map (fun x => -x)) (-r) = (distribute l r).map (fun x => -x) := by
  induction l generalizing r with
  | nil => rfl
  | cons x xs ih =>
    have hsgn : (-r).sign = -r.sign := Int.sign_neg r
    have hcond : (-r - (-r).sign = 0) ↔ (r - r.sign = 0) := by rw [hsgn]; omega
    by_cases h0 : r - r.sign = 0
    · rw [List.map_cons, distribute, distribute, if_pos h0, if_pos (hcond.mpr h0)]
      simp [hsgn]
      ring
    · rw [List.map_cons, distribute, distribute, if_neg h0, if_neg (fun hc => h0 (hcond.mp hc))]
      have harg : -r - (-r).sign = -(r - r.sign) := by rw [hsgn]; ring
      rw [harg, ih (r - r.sign)]
      simp [hsgn]
      ring

/-- The truncated quotient together with the sign-matched remainder of
`|total| % among` reconstitutes `total` — the arithmetic heart of
`split_equal_among`. -/
theorem tdiv_identity (total : Int) (among : Nat) :
    (among : Int) * total.tdiv (among : Int) +
      (if total < 0 then -((total.natAbs % among : Nat) : Int)
       else ((total.natAbs % among : Nat) : Int)) = total := by
  by_cases hneg : total < 0
  · obtain ⟨m, hm⟩ : ∃ m : Nat, total = -(m : Int) := ⟨total.natAbs, by omega⟩
    subst hm
    rw [if_pos hneg]
    have ht : ((-(m : Int))).tdiv ((among : Int)) = -(((m / among : Nat)) : Int) := by
      rw [Int.neg_tdiv]
      norm_num
      rfl
    rw [ht]
    simp only [Int.natAbs_neg, Int.natAbs_ofNat]
    have hInt : (among : Int) * ((m / among : Nat) : Int) + ((m % among : Nat) : Int) = (m : Int) := by
      exact_mod_cast Nat.div_add_mod m among
    linear_combination -hInt
  · obtain ⟨m, hm⟩ : ∃ m : Nat, total = (m : Int) := ⟨total.toNat, by omega⟩
    subst hm
    rw [if_neg hneg]
    have ht : (((m : Int))).tdiv ((among : Int)) = (((m / among : Nat)) : Int) := rfl
    rw [ht]
    simp only [Int.natAbs_ofNat]
    exact_mod_cast Nat.div_add_mod m among

/-- C3.  For every total and every `among > 0`, `split_equal_among`
returns a vector of length `among` summing to exactly `total` whose
entries pairwise differ by at most one unit, negating the total negates
the result elementwise, and the two pinned concrete vectors for
`(±100, 9)` come out as stated. -/
theorem C3_split_equal_among :
    (∀ (total : Int) (among : Nat), 0 < among →
      ∃ l, split_equal_among total among = some l ∧ l.length = among ∧
        l.sum = total ∧ (∀ x ∈ l, ∀ y ∈ l, (x - y).natAbs ≤ 1) ∧
        split_equal_among (-total) among = some (l.map (fun x => -x))) ∧
    split_equal_among 100 9 = some [12, 11, 11, 11, 11, 11, 11, 11, 11] ∧
    split_equal_among (-100) 9 = some [-12, -11, -11, -11, -11, -11, -11, -11, -11] := by
  refine ⟨?_, by decide, by decide⟩
  intro total among h
  have hmod : total.natAbs % among < among := Nat.mod_lt _ h
  rw [split_equal_among, if_neg (by omega)]
  refine ⟨_, rfl, ?_, ?_, ?_, ?_⟩
  · rw [distribute_length, List.length_replicate]
  · set rem : Int := if total < 0 then -((total.natAbs % among : Nat) : Int)
      else ((total.natAbs % among : Nat) : Int) with hrem
    have habs : rem.natAbs = total.natAbs % among := by
      rw [hrem]
      split
      · rw [Int.natAbs_neg, Int.natAbs_ofNat]
      · rw [Int.natAbs_ofNat]
    rw [distribute_sum _ _ (by rw [habs, List.length_replicate]; omega),
      List.sum_replicate, nsmul_eq_mul]
    exact tdiv_identity total among
  · set es := total.tdiv (among : Int) with hes
    set rem : Int := if total < 0 then -((total.natAbs % among : Nat) : Int)
      else ((total.natAbs % among : Nat) : Int) with hrem
    intro x hx y hy
    have hmem := distribute_mem es (List.replicate among es) rem
      (fun z hz => List.eq_of_mem_replicate hz)
    have hsb : -1 ≤ rem.sign ∧ rem.sign ≤ 1 := by
      rcases lt_trichotomy rem 0 with h1 | h1 | h1
      · rw [Int.sign_eq_neg_one_iff_neg.mpr h1]
        omega
      · rw [h1]
        decide
      · rw [Int.sign_eq_one_iff_pos.mpr h1]
        omega
    rcases hmem x hx with h1 | h1 <;> rcases hmem y hy with h2 | h2 <;>
      rw [h1, h2] <;> omega
  · have hnegAbs : (-total).natAbs = total.natAbs := Int.natAbs_neg total
    rw [split_equal_among, if_neg (by omega)]
    dsimp only
    congr 1
    have hdiv : (-total).tdiv (among : Int) = -(total.tdiv (among : Int)) :=
      Int.neg_tdiv total (among : Int)
    have hremEq : (if -total < 0 then -(((-total).natAbs % among : Nat) : Int)
        else (((-total).natAbs % among : Nat) : Int)) =
        -(if total < 0 then -((total.natAbs % among : Nat) : Int)
          else ((total.natAbs % among : Nat) : Int)) := by
      rw [hnegAbs]
      rcases lt_trichotomy total 0 with h1 | h1 | h1
      · rw [if_neg (show ¬(-total < 0) by omega), if_pos h1]
        ring
      · subst h1
        norm_num
      · rw [if_pos (show -total < 0 by omega), if_neg (show ¬(total < 0) by omega)]
    rw [hdiv, hremEq, show List.replicate among (-(total.tdiv (among : Int))) =
      (List.replicate among (total.tdiv (among : Int))).map (fun x => -x) by rw [List.map_replicate]]
    exact distribute_neg _ _

/-- Witness for C3 at `total = 100`, `among = 9`. -/
theorem C3_split_equal_among_witness :
    0 < 9 ∧ ∃ l, split_equal_among 100 9 = some l ∧ l.length = 9 ∧ l.sum = 100 ∧
      (∀ x ∈ l, ∀ y ∈ l, (x - y).natAbs ≤ 1) ∧
      split_equal_among (-100) 9 = some (l.map (fun x => -x)) :=
  ⟨by decide, C3_split_equal_among.1 100 9 (by decide)⟩

/-! ## Ledger application (C6) and the explicit-oversum guard (C8) -/

/-- The loop `applyBalances` succeeds and adds the looked-up delta to every member
when every member name has an entry in the change. -/

theorem applyBalances_spec (ms : List (String × Money)) (tac : TransactionChange)
    (h : ∀ p ∈ ms, (lookupTC tac p.1).isSome = true) :
    applyBalances ms tac =
      some (ms.map (fun p => (p.1, p.2 + (lookupTC tac p.1).getD 0))) := by
  induction ms with
  | nil => rfl
  | cons x xs ih =>
    obtain ⟨v, hv⟩ := Option.isSome_iff_exists.mp (h x (by simp))
    rw [applyBalances, hv, ih (fun p hp => h p (List.mem_cons_of_mem x hp))]
    simp [hv]

/-- C6, amended.  `apply_tachange` adds `delta[name]` to each member's
balance provided the delta has an entry for every member; keys of the
delta that are not member names are silently ignored rather than reported
as `MemberNotFound` (see `C6_unknown_key_not_an_error`), and a member
missing from the delta panics the `unwrap` instead of erroring. -/
theorem C6_amended (g : Group) (tac : TransactionChange)
    (h : ∀ p ∈ g.members, (lookupTC tac p.1).isSome = true) :
    Group.apply_tachange g tac =
      some { g with
        members := g.members.map (fun p => (p.1, p.2 + (lookupTC tac p.1).getD 0)) } := by
  rw [Group.apply_tachange, applyBalances_spec g.members tac h]
  rfl

/-- Witness for C6 on a one-member group with an extra unknown key. -/
theorem C6_amended_witness :
    (∀ p ∈ ([("Alice", (1 : Int))] : List (String × Money)),
      (lookupTC [("Alice", 3), ("Zed", 7)] p.1).isSome = true) ∧
    Group.apply_tachange ⟨"g", .EUR, [("Alice", 1)], []⟩ [("Alice", 3), ("Zed", 7)] =
      some ⟨"g", .EUR, [("Alice", 4)], []⟩ := by
  refine ⟨by decide, ?_⟩
  rw [C6_amended ⟨"g", .EUR, [("Alice", 1)], []⟩ [("Alice", 3), ("Zed", 7)] (by decide)]
  decide

/-- A successful parse loop returns the sum of the explicit amounts and
the number of wildcards of the parsed targets. -/
theorem parseLoop_ok_spec (raw : List String) (total : Int) (ts : List Target)
    (s : Int) (w : Nat) (h : parseLoop raw total = .ok (ts, s, w)) :
    s = (ts.map (fun t => t.amount.getD 0)).sum ∧
      w = (ts.map (fun t => if t.amount = none then 1 else 0)).sum := by
  induction raw generalizing ts s w with
  | nil =>
    rw [parseLoop] at h
    injection h with h
    injection h with h1 h2
    subst h1
    injection h2 with h2 h3
    subst h2
    subst h3
    simp
  | cons x xs ih =>
    rw [parseLoop] at h
    cases hx : Target.parse x total with
    | error e => rw [hx] at h; exact absurd h (by simp)
    | ok t =>
      rw [hx] at h
      cases hr : parseLoop xs total with
      | error e => rw [hr] at h; exact absurd h (by simp)
      | ok trip =>
        obtain ⟨ts0, s0, w0⟩ := trip
        rw [hr] at h
        injection h with h
        injection h with h1 h2
        injection h2 with h2 h3
        obtain ⟨hs0, hw0⟩ := ih ts0 s0 w0 hr
        subst h1
        subst h2
        subst h3
        constructor
        · simp [hs0]
          ring
        · simp [hw0]
          omega

/-- A successful `parse_multiple` is a successful parse loop whose summed
explicit amounts are bounded by the total in absolute value. -/
theorem parse_multiple_ok_inv (raw : List String) (total : Int) (ts : List Target)
    (s : Int) (w : Nat) (h : Target.parse_multiple raw total = .ok (ts, s, w)) :
    parseLoop raw total = .ok (ts, s, w) ∧ (s.natAbs : Int) ≤ total := by
  rw [Target.parse_multiple] at h
  cases hr : parseLoop raw total with
  | error e => rw [hr] at h; exact absurd h (by simp)
  | ok trip =>
    obtain ⟨ts0, s0, w0⟩ := trip
    rw [hr] at h
    dsimp only at h
    by_cases hc : (s0.natAbs : Int) > total
    · rw [if_pos hc] at h
      exact absurd h (by simp)
    · rw [if_neg hc] at h
      injection h with h
      injection h with h1 h2
      injection h2 with h2 h3
      subst h1
      subst h2
      subst h3
      exact ⟨rfl, by omega⟩

/-- C8.  When every `--from` directive parses with an explicit amount and
those amounts sum to more than the total, the allocation fails with
`InvalidSemantic` (the parse loop's sum check fires inside
`Target::parse_multiple` and propagates out of `split_into_transaction`).
The claim's other half — explicit sums exceeding the total are accepted
only with a wildcard present — holds vacuously: `parse_multiple` rejects
`|explicit_sum| > total` whether or not wildcards are present, so such a
directive list is never accepted at all. -/
theorem C8_explicit_oversum_invalid_semantic
    (total : Int) (g : Group) (froms tos : List String) (br : Bool)
    (ts : List Target) (s : Int) (w : Nat)
    (hp : parseLoop froms total = .ok (ts, s, w))
    (hall : ∀ t ∈ ts, t.amount ≠ none)
    (hs : s > total) :
    split_into_transaction total g froms tos br =
      .err (.InvalidSemantic (oversumMsg s total)) := by
  have hpm : Target.parse_multiple froms total =
      .error (.InvalidSemantic (oversumMsg s total)) := by
    rw [Target.parse_multiple, hp]
    dsimp only
    rw [if_pos (show (s.natAbs : Int) > total by omega)]
  rw [split_into_transaction, hpm]

/-- Witness for C8: `--from alice:90 --from bob:20` against total 10000
(explicit sum 11000) is rejected with `InvalidSemantic`. -/
theorem C8_witness :
    parseLoop ["alice:90", "bob:20"] 10000 =
      .ok ([⟨"alice", some 9000⟩, ⟨"bob", some 2000⟩], 11000, 0) ∧
    (∀ t ∈ ([⟨"alice", some 9000⟩, ⟨"bob", some 2000⟩] : List Target), t.amount ≠ none) ∧
    (11000 : Int) > 10000 ∧
    split_into_transaction 10000 ⟨"g", .EUR, [("alice", 0), ("bob", 0)], []⟩
        ["alice:90", "bob:20"] [] false =
      .err (.InvalidSemantic (oversumMsg 11000 10000)) := by
  refine ⟨by decide, by decide, by decide, ?_⟩
  exact C8_explicit_oversum_invalid_semantic 10000 ⟨"g", .EUR, [("alice", 0), ("bob", 0)], []⟩
    ["alice:90", "bob:20"] [] false [⟨"alice", some 9000⟩, ⟨"bob", some 2000⟩] 11000 0
    (by decide) (by decide) (by decide)

/-! ## Conservation of the allocated transaction change (C2)

The allocator walks the member list while matching directives with
`find`, so only the first directive naming a member takes effect; the
invariants below are therefore phrased relative to the member names still
ahead of the walk. -/

/-- Sum, over the targets whose member is in `names`, of a value `F`. -/

def sumIn {M : Type} [AddCommMonoid M] (F : Target → M) (names : List String)
    (ts : List Target) : M :=
  (ts.map (fun t => if t.member ∈ names then F t else 0)).sum

/-- Sum of the explicit amounts of the targets naming a member in `names`. -/
def explicitSumIn (names : List String) (ts : List Target) : Int :=
  sumIn (fun t => t.amount.getD 0) names ts

/-- Number of wildcard targets naming a member in `names`. -/
def wildcardCountIn (names : List String) (ts : List Target) : Nat :=
  sumIn (fun t => if t.amount = none then 1 else 0) names ts

/-- Number of targets naming a member in `names`. -/
def recvCountIn (names : List String) (ts : List Target) : Nat :=
  sumIn (fun _ => 1) names ts

/-- Changing a map-sum at a single element of a duplicate-free list. -/
theorem sum_map_single {α M : Type} [AddCommMonoid M] (t : α) (f g : α → M) :
    ∀ (l : List α), l.Nodup → t ∈ l → (∀ u ∈ l, u ≠ t → f u = g u) →
      (l.map f).sum + g t = (l.map g).sum + f t := by
  intro l
  induction l with
  | nil => intro _ ht _; cases ht
  | cons x xs ih =>
    intro hnd ht hcong
    rcases List.mem_cons.mp ht with rfl | htx
    · have hxs : ∀ u ∈ xs, f u = g u := by
        intro u hu
        exact hcong u (List.mem_cons_of_mem _ hu)
          (fun he => (List.nodup_cons.mp hnd).1 (he ▸ hu))
      rw [List.map_cons, List.map_cons, List.sum_cons, List.sum_cons,
        List.map_congr_left hxs]
      abel
    · have hxt : x ≠ t := by
        intro he
        exact (List.nodup_cons.mp hnd).1 (he ▸ htx)
      have hfx : f x = g x := hcong x (by simp) hxt
      have hih := ih (List.nodup_cons.mp hnd).2 htx
        (fun u hu hut => hcong u (List.mem_cons_of_mem _ hu) hut)
      rw [List.map_cons, List.map_cons, List.sum_cons, List.sum_cons, hfx,
        add_assoc, add_assoc, hih]

/-- No member names, no contribution. -/
theorem sumIn_nil {M : Type} [AddCommMonoid M] (F : Target → M) (ts : List Target) :
    sumIn F [] ts = 0 := by
  unfold sumIn
  induction ts with
  | nil => rfl
  | cons t ts ih => simp [ih]

/-- A name matched by no target contributes nothing. -/
theorem sumIn_cons_absent {M : Type} [AddCommMonoid M] (F : Target → M) (n : String)
    (names : List String) (ts : List Target) (h : ∀ t ∈ ts, t.member ≠ n) :
    sumIn F (n :: names) ts = sumIn F names ts := by
  unfold sumIn
  congr 1
  apply List.map_congr_left
  intro t ht
  have hiff : t.member ∈ n :: names ↔ t.member ∈ names := by
    simp [List.mem_cons, h t ht]
  exact if_congr hiff rfl rfl

/-- Removing the head name removes exactly the unique target naming it. -/
theorem sumIn_cons_found {M : Type} [AddCommMonoid M] (F : Target → M) (n : String)
    (names : List String) (ts : List Target) (t0 : Target)
    (hts : (ts.map Target.member).Nodup) (ht0 : t0 ∈ ts) (hm : t0.member = n)
    (hn : n ∉ names) :
    sumIn F (n :: names) ts = sumIn F names ts + F t0 := by
  have hnd : ts.Nodup := hts.of_map _
  have hkey := sum_map_single t0
    (fun t => if t.member ∈ n :: names then F t else 0)
    (fun t => if t.member ∈ names then F t else 0) ts hnd ht0 ?_
  · have hft : (if t0.member ∈ n :: names then F t0 else 0) = F t0 := by
      rw [if_pos (by simp [hm])]
    have hgt : (if t0.member ∈ names then F t0 else 0) = 0 := by
      rw [if_neg (by rw [hm]; exact hn)]
    unfold sumIn
    dsimp only at hkey
    rw [hft, hgt] at hkey
    rw [← hkey]
    abel
  · intro u hu hut
    have humem : u.member ≠ n := by
      intro he
      exact hut (List.inj_on_of_nodup_map hts hu ht0 (by rw [he, hm]))
    have hiff : u.member ∈ n :: names ↔ u.member ∈ names := by
      simp [List.mem_cons, humem]
    exact if_congr hiff rfl rfl

/-- When every target names a listed member, the restriction is the full sum. -/
theorem sumIn_all {M : Type} [AddCommMonoid M] (F : Target → M) (names : List String)
    (ts : List Target) (h : ∀ t ∈ ts, t.member ∈ names) :
    sumIn F names ts = (ts.map F).sum := by
  unfold sumIn
  congr 1
  apply List.map_congr_left
  intro t ht
  rw [if_pos (h t ht)]

/-- The indicator sum counts the matching targets. -/
theorem count_filter_aux (names : List String) (ts : List Target) :
    (ts.map (fun t => if t.member ∈ names then (1 : Nat) else 0)).sum =
      (ts.filter (fun t => decide (t.member ∈ names))).length := by
  induction ts with
  | nil => rfl
  | cons t ts ih =>
    by_cases hm : t.member ∈ names
    · rw [List.map_cons, List.sum_cons, if_pos hm,
        List.filter_cons_of_pos (by simpa using hm), List.length_cons, ih]
      omega
    · rw [List.map_cons, List.sum_cons, if_neg hm,
        List.filter_cons_of_neg (by simpa using hm), ih]
      omega

/-- Distinct targets naming distinct listed members are at most as many
as the names. -/
theorem recvCountIn_le_length (names : List String) (ts : List Target)
    (hn : names.Nodup) (hts : (ts.map Target.member).Nodup) :
    recvCountIn names ts ≤ names.length := by
  have h1 : recvCountIn names ts =
      ((ts.filter (fun t => decide (t.member ∈ names))).map Target.member).length := by
    rw [List.length_map]
    unfold recvCountIn sumIn
    exact count_filter_aux names ts
  have h2 : ((ts.filter (fun t => decide (t.member ∈ names))).map Target.member).Nodup :=
    hts.sublist (List.Sublist.map _ (List.filter_sublist _))
  have h3 : (ts.filter (fun t => decide (t.member ∈ names))).map Target.member ⊆ names := by
    intro m hm
    obtain ⟨t, ht, rfl⟩ := List.mem_map.mp hm
    have := List.mem_filter.mp ht
    exact of_decide_eq_true this.2
  rw [h1]
  exact (h2.subperm h3).length_le

/-- A successful `split_equal_among` has nonzero divisor, the requested
length, and sums to the amount. -/
theorem split_equal_among_some (c : Int) (n : Nat) (l : List Int)
    (h : split_equal_among c n = some l) :
    n ≠ 0 ∧ l.length = n ∧ l.sum = c := by
  rw [split_equal_among] at h
  by_cases hn : n = 0
  · rw [if_pos hn] at h
    exact absurd h (by simp)
  · rw [if_neg hn] at h
    dsimp only at h
    injection h with h
    subst h
    refine ⟨hn, ?_, ?_⟩
    · rw [distribute_length, List.length_replicate]
    · have habs : (if c < 0 then -((c.natAbs % n : Nat) : Int)
          else ((c.natAbs % n : Nat) : Int)).natAbs = c.natAbs % n := by
        split
        · rw [Int.natAbs_neg, Int.natAbs_ofNat]
        · rw [Int.natAbs_ofNat]
      have hmod : c.natAbs % n < n := Nat.mod_lt _ (by omega)
      rw [distribute_sum _ _ (by rw [habs, List.length_replicate]; omega),
        List.sum_replicate, nsmul_eq_mul]
      exact tdiv_identity c n

/-- Unfolding equation of `leg1` at a member. -/
theorem leg1_cons (n : String) (b : Money) (rest : List (String × Money))
    (givers : List Target) (ws : List Money) :
    leg1 ((n, b) :: rest) givers ws =
      match givers.find? (fun t => t.member == n) with
      | some t =>
        match t.amount with
        | some a => (leg1 rest givers ws).map (fun l => (n, a) :: l)
        | none =>
          match ws with
          | [] => none
          | v :: ws2 => (leg1 rest givers ws2).map (fun l => (n, v) :: l)
      | none => (leg1 rest givers ws).map (fun l => (n, (0 : Int)) :: l) := rfl

/-- The positive leg succeeds and injects exactly the explicit amounts of
the matched givers plus the consumed wildcard shares, provided the member
names and the giver names are duplicate-free and the share list matches
the wildcard count. -/
theorem leg1_spec :
    ∀ (ms : List (String × Money)) (givers : List Target) (ws : List Money),
    (ms.map Prod.fst).Nodup →
    (givers.map Target.member).Nodup →
    ws.length = wildcardCountIn (ms.map Prod.fst) givers →
    ∃ out, leg1 ms givers ws = some out ∧
      out.map Prod.fst = ms.map Prod.fst ∧
      (out.map Prod.snd).sum = explicitSumIn (ms.map Prod.fst) givers + ws.sum := by
  intro ms
  induction ms with
  | nil =>
    intro givers ws _ _ hlen
    refine ⟨[], rfl, rfl, ?_⟩
    simp only [List.map_nil, List.sum_nil] at hlen ⊢
    rw [wildcardCountIn, sumIn_nil] at hlen
    have hw : ws = [] := List.eq_nil_of_length_eq_zero hlen
    subst hw
    rw [explicitSumIn, sumIn_nil]
    simp
  | cons p rest ih =>
    obtain ⟨n, b⟩ := p
    intro givers ws hnm hgm hlen
    simp only [List.map_cons] at hnm hlen ⊢
    have hnr : n ∉ rest.map Prod.fst := (List.nodup_cons.mp hnm).1
    have hnm2 : (rest.map Prod.fst).Nodup := (List.nodup_cons.mp hnm).2
    cases hf : givers.find? (fun t => t.member == n) with
    | none =>
      have habs : ∀ t ∈ givers, t.member ≠ n := by
        intro t ht he
        have := List.find?_eq_none.mp hf t ht
        simp [he] at this
      have hwc : wildcardCountIn (n :: rest.map Prod.fst) givers =
          wildcardCountIn (rest.map Prod.fst) givers := by
        rw [wildcardCountIn, sumIn_cons_absent _ _ _ _ habs, ← wildcardCountIn]
      have hexp : explicitSumIn (n :: rest.map Prod.fst) givers =
          explicitSumIn (rest.map Prod.fst) givers := by
        rw [explicitSumIn, sumIn_cons_absent _ _ _ _ habs, ← explicitSumIn]
      rw [hwc] at hlen
      obtain ⟨out, ho, hk, hs⟩ := ih givers ws hnm2 hgm hlen
      refine ⟨(n, 0) :: out, ?_, ?_, ?_⟩
      · rw [leg1_cons, hf, ho]
        rfl
      · rw [List.map_cons, hk]
      · rw [List.map_cons, List.sum_cons, hs, hexp]
        ring
    | some t0 =>
      have hm : t0.member = n := by
        have := List.find?_some hf
        simpa using this
      have ht0 : t0 ∈ givers := List.mem_of_find?_eq_some hf
      cases ha : t0.amount with
      | some a =>
        have hwc : wildcardCountIn (n :: rest.map Prod.fst) givers =
            wildcardCountIn (rest.map Prod.fst) givers := by
          rw [wildcardCountIn, sumIn_cons_found _ n _ _ t0 hgm ht0 hm hnr, ha,
            ← wildcardCountIn]
          simp
        have hexp : explicitSumIn (n :: rest.map Prod.fst) givers =
            explicitSumIn (rest.map Prod.fst) givers + a := by
          rw [explicitSumIn, sumIn_cons_found _ n _ _ t0 hgm ht0 hm hnr, ha,
            ← explicitSumIn]
          simp
        rw [hwc] at hlen
        obtain ⟨out, ho, hk, hs⟩ := ih givers ws hnm2 hgm hlen
        refine ⟨(n, a) :: out, ?_, ?_, ?_⟩
        · rw [leg1_cons, hf]
          dsimp only
          rw [ha, ho]
          rfl
        · rw [List.map_cons, hk]
        · rw [List.map_cons, List.sum_cons, hs, hexp]
          ring
      | none =>
        have hwc : wildcardCountIn (n :: rest.map Prod.fst) givers =
            wildcardCountIn (rest.map Prod.fst) givers + 1 := by
          rw [wildcardCountIn, sumIn_cons_found _ n _ _ t0 hgm ht0 hm hnr, ha,
            ← wildcardCountIn]
          simp
        have hexp : explicitSumIn (n :: rest.map Prod.fst) givers =
            explicitSumIn (rest.map Prod.fst) givers := by
          rw [explicitSumIn, sumIn_cons_found _ n _ _ t0 hgm ht0 hm hnr, ha,
            ← explicitSumIn]
          simp
        rw [hwc] at hlen
        cases ws with
        | nil => simp at hlen
        | cons v ws2 =>
          have hlen2 : ws2.length = wildcardCountIn (rest.map Prod.fst) givers := by
            simpa using hlen
          obtain ⟨out, ho, hk, hs⟩ := ih givers ws2 hnm2 hgm hlen2
          refine ⟨(n, v) :: out, ?_, ?_, ?_⟩
          · rw [leg1_cons, hf]
            dsimp only
            rw [ha, ho]
            rfl
          · rw [List.map_cons, hk]
          · rw [List.map_cons, List.sum_cons, hs, hexp, List.sum_cons]
            ring

/-- Unfolding equation of `leg2` at a member. -/
theorem leg2_cons (n : String) (v : Money) (rest : List (String × Money))
    (recvrs : List Target) (ws : List Money) (br : Bool) :
    leg2 ((n, v) :: rest) recvrs ws br =
      match recvrs.find? (fun t => t.member == n) with
      | some t =>
        match t.amount with
        | none => none
        | some a =>
          if br then
            match ws with
            | [] => none
            | mv :: ws2 => (leg2 rest recvrs ws2 br).map (fun l => (n, v - a - mv) :: l)
          else (leg2 rest recvrs ws br).map (fun l => (n, v - a) :: l)
      | none =>
        match ws with
        | [] => none
        | mv :: ws2 => (leg2 rest recvrs ws2 br).map (fun l => (n, v - mv) :: l) := rfl

/-- The negative leg succeeds and subtracts exactly the explicit receiver
amounts plus all shares, provided names are duplicate-free, receivers are
explicit, and the share list length matches the consumers. -/
theorem leg2_spec :
    ∀ (ms : List (String × Money)) (recvrs : List Target) (ws : List Money) (br : Bool),
    (ms.map Prod.fst).Nodup →
    (recvrs.map Target.member).Nodup →
    (∀ t ∈ recvrs, t.amount ≠ none) →
    ws.length + (if br then 0 else recvCountIn (ms.map Prod.fst) recvrs) = ms.length →
    ∃ out, leg2 ms recvrs ws br = some out ∧
      out.map Prod.fst = ms.map Prod.fst ∧
      (out.map Prod.snd).sum =
        (ms.map Prod.snd).sum - explicitSumIn (ms.map Prod.fst) recvrs - ws.sum := by
  intro ms
  induction ms with
  | nil =>
    intro recvrs ws br _ _ _ hlen
    refine ⟨[], rfl, rfl, ?_⟩
    simp only [List.map_nil, List.sum_nil] at hlen ⊢
    have hw : ws = [] := by
      rw [recvCountIn, sumIn_nil] at hlen
      refine List.eq_nil_of_length_eq_zero ?_
      rcases br with _ | _ <;> simpa using hlen
    subst hw
    rw [explicitSumIn, sumIn_nil]
    simp
  | cons p rest ih =>
    obtain ⟨n, v⟩ := p
    intro recvrs ws br hnm hrm hall hlen
    simp only [List.map_cons] at hnm hlen ⊢
    have hnr : n ∉ rest.map Prod.fst := (List.nodup_cons.mp hnm).1
    have hnm2 : (rest.map Prod.fst).Nodup := (List.nodup_cons.mp hnm).2
    cases hf : recvrs.find? (fun t => t.member == n) with
    | none =>
      have habs : ∀ t ∈ recvrs, t.member ≠ n := by
        intro t ht he
        have := List.find?_eq_none.mp hf t ht
        simp [he] at this
      have hrc : recvCountIn (n :: rest.map Prod.fst) recvrs =
          recvCountIn (rest.map Prod.fst) recvrs := by
        rw [recvCountIn, sumIn_cons_absent _ _ _ _ habs, ← recvCountIn]
      have hexp : explicitSumIn (n :: rest.map Prod.fst) recvrs =
          explicitSumIn (rest.map Prod.fst) recvrs := by
        rw [explicitSumIn, sumIn_cons_absent _ _ _ _ habs, ← explicitSumIn]
      have hbound : recvCountIn (rest.map Prod.fst) recvrs ≤ (rest.map Prod.fst).length :=
        recvCountIn_le_length _ _ hnm2 hrm
      rw [hrc] at hlen
      have hws : ws ≠ [] := by
        intro he
        subst he
        rcases br with _ | _ <;> simp at hlen <;> simp [List.length_map] at hbound <;> omega
      cases ws with
      | nil => exact absurd rfl hws
      | cons mv ws2 =>
        have hlen2 : ws2.length + (if br then 0 else
            recvCountIn (rest.map Prod.fst) recvrs) = rest.length := by
          rcases br with _ | _ <;> simp at hlen ⊢ <;> omega
        obtain ⟨out, ho, hk, hs⟩ := ih recvrs ws2 br hnm2 hrm hall hlen2
        refine ⟨(n, v - mv) :: out, ?_, ?_, ?_⟩
        · rw [leg2_cons, hf]
          dsimp only
          rw [ho]
          rfl
        · rw [List.map_cons, hk]
        · simp only [List.map_cons, List.sum_cons]
          rw [hs, hexp]
          ring
    | some t0 =>
      have hm : t0.member = n := by
        have := List.find?_some hf
        simpa using this
      have ht0 : t0 ∈ recvrs := List.mem_of_find?_eq_some hf
      obtain ⟨a, ha⟩ : ∃ a, t0.amount = some a := by
        cases hamt : t0.amount with
        | none => exact absurd hamt (hall t0 ht0)
        | some a => exact ⟨a, rfl⟩
      have hrc : recvCountIn (n :: rest.map Prod.fst) recvrs =
          recvCountIn (rest.map Prod.fst) recvrs + 1 := by
        rw [recvCountIn, sumIn_cons_found _ n _ _ t0 hrm ht0 hm hnr, ← recvCountIn]
      have hexp : explicitSumIn (n :: rest.map Prod.fst) recvrs =
          explicitSumIn (rest.map Prod.fst) recvrs + a := by
        rw [explicitSumIn, sumIn_cons_found _ n _ _ t0 hrm ht0 hm hnr, ha,
          ← explicitSumIn]
        simp
      rcases br with _ | _
      · -- br = false: no share for the receiver, same ws
        rw [hrc] at hlen
        have hlen2 : ws.length + (if false then 0 else
            recvCountIn (rest.map Prod.fst) recvrs) = rest.length := by
          simp at hlen ⊢
          omega
        obtain ⟨out, ho, hk, hs⟩ := ih recvrs ws false hnm2 hrm hall hlen2
        refine ⟨(n, v - a) :: out, ?_, ?_, ?_⟩
        · rw [leg2_cons, hf]
          dsimp only
          rw [ha]
          dsimp only
          rw [if_neg (by simp), ho]
          rfl
        · rw [List.map_cons, hk]
        · simp only [List.map_cons, List.sum_cons]
          rw [hs, hexp]
          ring
      · -- br = true: the receiver also pays a share
        have hws : ws ≠ [] := by
          intro he
          subst he
          simp at hlen
        cases ws with
        | nil => exact absurd rfl hws
        | cons mv ws2 =>
          have hlen2 : ws2.length + (if true then 0 else
              recvCountIn (rest.map Prod.fst) recvrs) = rest.length := by
            simp at hlen ⊢
            omega
          obtain ⟨out, ho, hk, hs⟩ := ih recvrs ws2 true hnm2 hrm hall hlen2
          refine ⟨(n, v - a - mv) :: out, ?_, ?_, ?_⟩
          · rw [leg2_cons, hf]
            dsimp only
            rw [ha]
            dsimp only
            rw [if_pos rfl, ho]
            rfl
          · rw [List.map_cons, hk]
          · simp only [List.map_cons, List.sum_cons]
            rw [hs, hexp]
            ring

/-- Summing the constant 1 counts the list. -/
theorem sum_map_one (l : List Target) : (l.map (fun _ => (1 : Nat))).sum = l.length := by
  induction l with
  | nil => rfl
  | cons t ts ih =>
    simp [ih]
    omega

/-- C2, amended.  The claim as stated fails when a member is named by
several `--from` directives (see `C2_duplicate_giver_breaks_conservation`):
only the first directive is applied while all of them enter the parsed
sum.  Under the amendment that no member is named twice among the resolved
`--from` targets nor twice among the `--to` targets, every successful
`split_into_transaction` returns a change with exactly one entry per group
member (in iteration order) whose values sum to 0. -/
theorem C2_amended (total : Int) (g : Group) (froms tos : List String) (br : Bool)
    (tc : TransactionChange) (gs rs : List Target)
    (hnm : (g.members.map Prod.fst).Nodup)
    (hok : split_into_transaction total g froms tos br = .ok (tc, gs, rs))
    (hgm : (gs.map Target.member).Nodup)
    (hrm : (rs.map Target.member).Nodup) :
    tc.map Prod.fst = g.members.map Prod.fst ∧ sumValues tc = 0 := by
  rw [split_into_transaction] at hok
  cases hpf : Target.parse_multiple froms total with
  | error e => rw [hpf] at hok; exact absurd hok (by simp)
  | ok tripF =>
  obtain ⟨givers, gsum, gwc⟩ := tripF
  rw [hpf] at hok
  dsimp only at hok
  cases hpt : Target.parse_multiple tos total with
  | error e => rw [hpt] at hok; exact absurd hok (by simp)
  | ok tripT =>
  obtain ⟨recvrs, rsum, rwc⟩ := tripT
  rw [hpt] at hok
  dsimp only at hok
  by_cases h1 : recvrs.any (fun el => el.amount = none) = true
  · rw [if_pos h1] at hok; exact absurd hok (by simp)
  rw [if_neg h1] at hok
  by_cases h2 : giversFoldSat givers ≤ recvrsFoldSum recvrs
  · rw [if_pos h2] at hok; exact absurd hok (by simp)
  rw [if_neg h2] at hok
  by_cases h3 : (recvrs.any (fun el => !((g.members.map Prod.fst).contains el.member)) ||
      givers.any (fun el => !((g.members.map Prod.fst).contains el.member))) = true
  · rw [if_pos h3] at hok; exact absurd hok (by simp)
  rw [if_neg h3] at hok
  cases hms1 : split_equal_among (total - gsum) gwc with
  | none => rw [hms1] at hok; exact absurd hok (by simp)
  | some ms1 =>
  rw [hms1] at hok
  dsimp only at hok
  cases hl1 : leg1 g.members givers ms1 with
  | none => rw [hl1] at hok; exact absurd hok (by simp)
  | some m1 =>
  rw [hl1] at hok
  dsimp only at hok
  by_cases h4 : g.members.length < (if br then 0 else recvrs.length)
  · rw [if_pos h4] at hok; exact absurd hok (by simp)
  rw [if_neg h4] at hok
  cases hms2 : split_equal_among (total - rsum)
      (g.members.length - (if br then 0 else recvrs.length)) with
  | none => rw [hms2] at hok; exact absurd hok (by simp)
  | some ms2 =>
  rw [hms2] at hok
  dsimp only at hok
  cases hl2 : leg2 m1 recvrs ms2 br with
  | none => rw [hl2] at hok; exact absurd hok (by simp)
  | some m2 =>
  rw [hl2] at hok
  dsimp only at hok
  rw [RunResult.ok.injEq, Prod.mk.injEq, Prod.mk.injEq] at hok
  obtain ⟨rfl, rfl, rfl⟩ := hok
  -- parse facts
  obtain ⟨hplF, habsF⟩ := parse_multiple_ok_inv froms total givers gsum gwc hpf
  obtain ⟨hgsum, hgwc⟩ := parseLoop_ok_spec froms total givers gsum gwc hplF
  obtain ⟨hplT, habsT⟩ := parse_multiple_ok_inv tos total recvrs rsum rwc hpt
  obtain ⟨hrsum, hrwc⟩ := parseLoop_ok_spec tos total recvrs rsum rwc hplT
  -- guard facts
  have hallR : ∀ t ∈ recvrs, t.amount ≠ none := by
    intro t ht hc
    exact h1 (List.any_eq_true.mpr ⟨t, ht, by simp [hc]⟩)
  have hmemG : ∀ t ∈ givers, t.member ∈ g.members.map Prod.fst := by
    intro t ht
    by_contra hc
    refine h3 ?_
    rw [Bool.or_eq_true]
    right
    refine List.any_eq_true.mpr ⟨t, ht, ?_⟩
    simp [hc]
  have hmemR : ∀ t ∈ recvrs, t.member ∈ g.members.map Prod.fst := by
    intro t ht
    by_contra hc
    refine h3 ?_
    rw [Bool.or_eq_true]
    left
    refine List.any_eq_true.mpr ⟨t, ht, ?_⟩
    simp [hc]
  -- split_equal facts
  obtain ⟨hgwc0, hms1len, hms1sum⟩ := split_equal_among_some _ _ _ hms1
  obtain ⟨hN0, hms2len, hms2sum⟩ := split_equal_among_some _ _ _ hms2
  -- leg 1
  have hlen1 : ms1.length = wildcardCountIn (g.members.map Prod.fst) givers := by
    rw [hms1len, wildcardCountIn, sumIn_all _ _ _ hmemG, ← hgwc]
  obtain ⟨out1, ho1, hk1, hs1⟩ := leg1_spec g.members givers ms1 hnm hgm hlen1
  rw [hl1] at ho1
  injection ho1 with ho1
  subst ho1
  -- leg 2
  have hrcount : recvCountIn (m1.map Prod.fst) recvrs = recvrs.length := by
    rw [hk1, recvCountIn, sumIn_all _ _ _ hmemR, sum_map_one]
  have hnm1 : (m1.map Prod.fst).Nodup := by
    rw [hk1]
    exact hnm
  have hm1len : m1.length = g.members.length := by
    have := congrArg List.length hk1
    rwa [List.length_map, List.length_map] at this
  have hlen2 : ms2.length + (if br then 0 else recvCountIn (m1.map Prod.fst) recvrs) =
      m1.length := by
    rw [hrcount, hm1len, hms2len]
    rcases br with _ | _ <;> simp at h4 ⊢ <;> omega
  obtain ⟨out2, ho2, hk2, hs2⟩ := leg2_spec m1 recvrs ms2 br hnm1 hrm hallR hlen2
  rw [hl2] at ho2
  injection ho2 with ho2
  subst ho2
  constructor
  · rw [hk2, hk1]
  · rw [sumValues, hs2, hs1, hms1sum, hms2sum]
    have hge : explicitSumIn (g.members.map Prod.fst) givers = gsum := by
      rw [explicitSumIn, sumIn_all _ _ _ hmemG, ← hgsum]
    have hre : explicitSumIn (m1.map Prod.fst) recvrs = rsum := by
      rw [hk1, explicitSumIn, sumIn_all _ _ _ hmemR, ← hrsum]
    rw [hge, hre]
    ring

/-- Witness for C2 on the repository's own allocation example: expense 120
fronted by Alice in a four-member group. -/
theorem C2_amended_witness :
    (([("Alice", (0 : Int)), ("Bob", 0), ("Charly", 0), ("Django", 0)].map Prod.fst).Nodup) ∧
    (split_into_transaction 120
        ⟨"t", .EUR, [("Alice", 0), ("Bob", 0), ("Charly", 0), ("Django", 0)], []⟩
        ["Alice"] [] false =
      .ok ([("Alice", 90), ("Bob", -30), ("Charly", -30), ("Django", -30)],
        [⟨"Alice", none⟩], [])) ∧
    ([("Alice", (90 : Int)), ("Bob", -30), ("Charly", -30), ("Django", -30)].map Prod.fst =
        [("Alice", (0 : Int)), ("Bob", 0), ("Charly", 0), ("Django", 0)].map Prod.fst ∧
      sumValues [("Alice", 90), ("Bob", -30), ("Charly", -30), ("Django", -30)] = 0) :=
  ⟨by decide, by decide,
    C2_amended 120 ⟨"t", .EUR, [("Alice", 0), ("Bob", 0), ("Charly", 0), ("Django", 0)], []⟩
      ["Alice"] [] false
      [("Alice", 90), ("Bob", -30), ("Charly", -30), ("Django", -30)]
      [⟨"Alice", none⟩] []
      (by decide) (by decide) (by decide) (by decide)⟩

/-! ## Evaluating `Target::parse` on well-formed directives (C7) -/

/-- Splitting a list without the separator yields one piece. -/

theorem splitOn_not_mem (sep : Char) (l : List Char) (h : sep ∉ l) :
    splitOn sep l = [l] := by
  induction l with
  | nil => rfl
  | cons c rest ih =>
    rw [splitOn]
    have hc : ¬(c = sep) := fun he => h (by simp [he])
    rw [ih (fun hm => h (List.mem_cons_of_mem _ hm))]
    simp [hc]

/-- Splitting around a single separator cuts exactly there. -/
theorem splitOn_append_sep (sep : Char) (l1 l2 : List Char) (h : sep ∉ l1) :
    splitOn sep (l1 ++ sep :: l2) = l1 :: splitOn sep l2 := by
  induction l1 with
  | nil =>
    rw [List.nil_append, splitOn]
    simp
  | cons c rest ih =>
    rw [List.cons_append, splitOn]
    have hc : ¬(c = sep) := fun he => h (by simp [he])
    rw [ih (fun hm => h (List.mem_cons_of_mem _ hm))]
    simp [hc]

/-- A string without `%` does not end in `%`. -/
theorem endsWithPercent_eq_false (l : List Char) (h : '%' ∉ l) :
    endsWithPercent l = false := by
  induction l with
  | nil => rfl
  | cons x xs ih =>
    cases xs with
    | nil =>
      have hx : ¬(x = '%') := fun he => h (by simp [he])
      simp [endsWithPercent, hx]
    | cons y ys =>
      exact ih (fun hm => h (List.mem_cons_of_mem _ hm))

/-- The last character decides `ends_with('%')`. -/
theorem endsWithPercent_snoc (l : List Char) (c : Char) :
    endsWithPercent (l ++ [c]) = decide (c = '%') := by
  induction l with
  | nil => rfl
  | cons x xs ih =>
    cases xs with
    | nil => exact ih
    | cons y ys => exact ih

/-- Dropping leading `%` characters from a `%`-free list is the identity. -/
theorem dropWhile_percent_eq_self (l : List Char) (h : '%' ∉ l) :
    l.dropWhile (fun c => c = '%') = l := by
  cases l with
  | nil => rfl
  | cons c rest =>
    have hc : ¬(c = '%') := fun he => h (by simp [he])
    simp [List.dropWhile_cons, hc]

/-- Trimming trailing `%` from a `%`-free list is the identity. -/
theorem trimEndPercent_eq_self (l : List Char) (h : '%' ∉ l) :
    trimEndPercent l = l := by
  rw [trimEndPercent, dropWhile_percent_eq_self _ (by simpa using h), List.reverse_reverse]

/-- Trimming strips exactly one trailing `%` from a `%`-free body. -/
theorem trimEndPercent_snoc_percent (l : List Char) (h : '%' ∉ l) :
    trimEndPercent (l ++ ['%']) = l := by
  rw [trimEndPercent, List.reverse_append]
  show ((('%' :: l.reverse).dropWhile (fun c => c = '%')).reverse) = l
  rw [List.dropWhile_cons]
  simp only [decide_True, reduceIte]
  rw [dropWhile_percent_eq_self _ (by simpa using h), List.reverse_reverse]

/-- Evaluation of `Target::parse` on a well-formed plain directive
`<name>:<number>`: the amount is the literal value times 100, rounded. -/
theorem parse_plain_eval (name num : List Char) (total : Int) (x : Int × Nat)
    (hne : name ≠ []) (hc1 : ':' ∉ name) (hp1 : '%' ∉ name) (hc2 : ':' ∉ num)
    (hp2 : '%' ∉ num) (hx : parseDecimal (replaceComma (trimWs num)) = some x) :
    Target.parse (String.mk (name ++ ':' :: num)) total =
      .ok ⟨String.mk name, some (roundHalfAwayFrac (x.1 * 100) (10 ^ x.2))⟩ := by
  have htl : (String.mk (name ++ ':' :: num)).toList = name ++ ':' :: num := rfl
  have hmem : '%' ∉ name ++ ':' :: num := by
    intro hm
    rcases List.mem_append.mp hm with h | h
    · exact hp1 h
    · rcases List.mem_cons.mp h with h | h
      · exact absurd h (by decide)
      · exact hp2 h
  have htrim : trimEndPercent (name ++ ':' :: num) = name ++ ':' :: num :=
    trimEndPercent_eq_self _ hmem
  have hsplit : splitOn ':' (name ++ ':' :: num) = [name, num] := by
    rw [splitOn_append_sep _ _ _ hc1, splitOn_not_mem _ _ hc2]
  have hends : endsWithPercent (name ++ ':' :: num) = false :=
    endsWithPercent_eq_false _ hmem
  simp only [Target.parse, htl, htrim, hsplit, hends, List.headD_cons,
    List.length_cons, List.length_nil, List.getD_cons_succ, List.getD_cons_zero]
  rw [if_neg hne, if_pos (by norm_num), hx]
  simp

/-- Evaluation of `Target::parse` on a well-formed percent directive
`<name>:<number>%`: the amount is `number/100 * total`, truncated. -/
theorem parse_percent_eval (name num : List Char) (total : Int) (x : Int × Nat)
    (hne : name ≠ []) (hc1 : ':' ∉ name) (hp1 : '%' ∉ name) (hc2 : ':' ∉ num)
    (hp2 : '%' ∉ num) (hx : parseDecimal (replaceComma (trimWs num)) = some x) :
    Target.parse (String.mk (name ++ ':' :: (num ++ ['%']))) total =
      .ok ⟨String.mk name, some (truncFrac (x.1 * total) (10 ^ x.2 * 100))⟩ := by
  have htl : (String.mk (name ++ ':' :: (num ++ ['%']))).toList =
      name ++ ':' :: (num ++ ['%']) := rfl
  have hmem : '%' ∉ name ++ ':' :: num := by
    intro hm
    rcases List.mem_append.mp hm with h | h
    · exact hp1 h
    · rcases List.mem_cons.mp h with h | h
      · exact absurd h (by decide)
      · exact hp2 h
  have hassoc : name ++ ':' :: (num ++ ['%']) = (name ++ ':' :: num) ++ ['%'] := by
    simp
  have htrim : trimEndPercent (name ++ ':' :: (num ++ ['%'])) = name ++ ':' :: num := by
    rw [hassoc]
    exact trimEndPercent_snoc_percent _ hmem
  have hsplit : splitOn ':' (name ++ ':' :: num) = [name, num] := by
    rw [splitOn_append_sep _ _ _ hc1, splitOn_not_mem _ _ hc2]
  have hends : endsWithPercent (name ++ ':' :: (num ++ ['%'])) = true := by
    rw [hassoc, endsWithPercent_snoc]
    decide
  simp only [Target.parse, htl, htrim, hsplit, hends, List.headD_cons,
    List.length_cons, List.length_nil, List.getD_cons_succ, List.getD_cons_zero]
  rw [if_neg hne, if_pos (by norm_num), hx]
  simp

/-- C7, amended.  For every well-formed directive `<name>:<number>` the
parsed amount is `round(number * 100)` with halves away from zero, as the
claim states; for `<name>:<p>%` the amount is the TRUNCATION toward zero
of `p/100 * total_amount`, not the rounding the claim states (see
`C7_percent_truncates_not_rounds`).  The three pinned concrete values
hold.  The transient `f32` arithmetic of the source is idealized as exact
rational arithmetic throughout. -/
theorem C7_amended :
    (∀ (name num : List Char) (total : Int) (x : Int × Nat),
      name ≠ [] → ':' ∉ name → '%' ∉ name → ':' ∉ num → '%' ∉ num →
      parseDecimal (replaceComma (trimWs num)) = some x →
      Target.parse (String.mk (name ++ ':' :: num)) total =
        .ok ⟨String.mk name, some (specRound (fracVal x * 100))⟩) ∧
    (∀ (name num : List Char) (total : Int) (x : Int × Nat),
      name ≠ [] → ':' ∉ name → '%' ∉ name → ':' ∉ num → '%' ∉ num →
      parseDecimal (replaceComma (trimWs num)) = some x →
      Target.parse (String.mk (name ++ ':' :: (num ++ ['%']))) total =
        .ok ⟨String.mk name, some (specTrunc (fracVal x / 100 * (total : ℚ)))⟩) ∧
    Target.parse "peter:25,22" 10000 = .ok ⟨"peter", some 2522⟩ ∧
    Target.parse "peter:25.22" 10000 = .ok ⟨"peter", some 2522⟩ ∧
    Target.parse "peter:10%" 10000 = .ok ⟨"peter", some 1000⟩ := by
  refine ⟨?_, ?_, by decide, by decide, by decide⟩
  · intro name num total x hne hc1 hp1 hc2 hp2 hx
    rw [parse_plain_eval name num total x hne hc1 hp1 hc2 hp2 hx]
    have hb1 : roundHalfAwayFrac (x.1 * 100) (10 ^ x.2) = specRound (fracVal x * 100) := by
      rw [roundHalfAwayFrac_eq_specRound _ _ (pow_pos (by norm_num) x.2)]
      congr 1
      rw [fracVal]
      have h10 : ((10 : ℚ)) ^ x.2 ≠ 0 := by positivity
      push_cast
      field_simp
    rw [hb1]
  · intro name num total x hne hc1 hp1 hc2 hp2 hx
    rw [parse_percent_eval name num total x hne hc1 hp1 hc2 hp2 hx]
    have hb2 : truncFrac (x.1 * total) (10 ^ x.2 * 100) =
        specTrunc (fracVal x / 100 * (total : ℚ)) := by
      rw [truncFrac_eq_specTrunc _ _ (by positivity)]
      congr 1
      rw [fracVal]
      have h10 : ((10 : ℚ)) ^ x.2 ≠ 0 := by positivity
      push_cast
      field_simp
    rw [hb2]

/-- Witness for C7 at the directive `peter:25,22`. -/
theorem C7_amended_witness :
    ("peter".toList ≠ ([] : List Char)) ∧
    Target.parse (String.mk ("peter".toList ++ ':' :: "25,22".toList)) 10000 =
      .ok ⟨String.mk "peter".toList, some (specRound (fracVal (2522, 2) * 100))⟩ :=
  ⟨by decide, C7_amended.1 "peter".toList "25,22".toList 10000 (2522, 2)
    (by decide) (by decide) (by decide) (by decide) (by decide) (by decide)⟩

end Splitter
